import Mathlib

/-!
Verification of the dense matrix/vector linear-algebra module of the PHAST
phylogenetics toolkit (`src/lib/base/matrix.c`), against its natural-language
specification.

The C type `Matrix` (row/column counts plus a row-major table of rows of
doubles) is embedded as a Lean structure over `ℚ`; machine doubles are
modelled as exact rationals, which is the standard shallow embedding for
claims about the algebraic structure of the code.  Fatal `assert` checks are
embedded as `Option`-returning functions (`none` = assertion failure), and
the LAPACK factorization backend of `mat_invert` is an abstract `Backend`
record supplying `dgetrf_`/`dgetri_`.
-/

set_option maxHeartbeats 1000000

namespace Phast

/-- Embedding of the C struct `Matrix`: row count, column count, and the
row-major backing store (`data[i][j]`).  The C allocation invariant (each of
the `nrows` row buffers holds exactly `ncols` doubles) is the separate
predicate `matWF`. -/
structure Mat where
  nrows : Nat
  ncols : Nat
  data : List (List ℚ)
deriving DecidableEq

/-- Embedding of the C struct `Vector` (collaborator of the matrix module):
size plus backing store. -/
structure Vec where
  size : Nat
  data : List ℚ
deriving DecidableEq

/-- `mat_get(m, row, col)`: `m->data[row][col]`.  Out-of-range reads have no
defined value in C; the embedding returns `0` there (the claims below are
stated within bounds, or track bounds explicitly via `mgetE`). -/
def mat_get (m : Mat) (row col : Nat) : ℚ :=
  (m.data.getD row []).getD col 0

/-- `vec_get(v, i)`: `v->data[i]` (same out-of-range convention as
`mat_get`). -/
def vec_get (v : Vec) (i : Nat) : ℚ :=
  v.data.getD i 0

/-- `mat_set(m, row, col, val)`: `m->data[row][col] = val`.  A write outside
the allocated region is a no-op in the embedding (in C it is undefined
behavior; the code under study only writes in bounds). -/
def mat_set (m : Mat) (row col : Nat) (val : ℚ) : Mat :=
  { m with data := m.data.set row ((m.data.getD row []).set col val) }

/-- The allocation invariant of the C `Matrix`: the row table holds `nrows`
rows and every row buffer holds exactly `ncols` doubles. -/
def matWF (m : Mat) : Prop :=
  m.data.length = m.nrows ∧ ∀ r ∈ m.data, r.length = m.ncols

instance (m : Mat) : Decidable (matWF m) := by
  unfold matWF; infer_instance

/-- The allocation invariant of the C `Vector`. -/
def vecWF (v : Vec) : Prop :=
  v.data.length = v.size

instance (v : Vec) : Decidable (vecWF v) := by
  unfold vecWF; infer_instance

/-- Row-major table of values `f i j` for `i < nr`, `j < nc`: the result of a
C loop nest that stores `f i j` into every cell of an `nr × nc` region. -/
def regionData (nr nc : Nat) (f : Nat → Nat → ℚ) : List (List ℚ) :=
  (List.range nr).map fun i => (List.range nc).map fun j => f i j

/-- A fresh `nr × nc` matrix whose every cell holds `f i j`. -/
def matOfFn (nr nc : Nat) (f : Nat → Nat → ℚ) : Mat :=
  { nrows := nr, ncols := nc, data := regionData nr nc f }

/-- `acc = 0; for (k = 0; k < n; k++) acc += f k;` — the accumulation pattern
used by `mat_mult`, `mat_vec_mult` and `mat_mult_diag`. -/
def sumTo (f : Nat → ℚ) (n : Nat) : ℚ :=
  (List.range n).foldl (fun a k => a + f k) 0

/-- `mat_transpose(src)` allocates a `ncols × nrows` matrix and stores
`src->data[i][j]` into cell `[j][i]`; the loop covers every cell of the new
matrix exactly once. -/
def mat_transpose (src : Mat) : Mat :=
  matOfFn src.ncols src.nrows fun j i => mat_get src i j

/-- `mat_mult(prod, m1, m2)`.  The C `assert` (note: it requires
`m1->nrows == m2->ncols` in addition to the inner-dimension and output-shape
conditions) is embedded as the guard; `none` models an assertion failure.
Each output cell is set to `0` and then accumulated over `k < m1->ncols`. -/
def mat_mult (prod m1 m2 : Mat) : Option Mat :=
  if m1.ncols = m2.nrows ∧ m1.nrows = m2.ncols ∧
      prod.nrows = m1.nrows ∧ prod.ncols = m2.ncols then
    some { prod with
           data := regionData prod.nrows prod.ncols fun i j =>
             sumTo (fun k => mat_get m1 i k * mat_get m2 k j) m1.ncols }
  else none

/-- `mat_mult_diag(A, B, C, D)`: `A = B * diag(C) * D`, with the scalar from
the diagonal folded into the innermost accumulation
(`A->data[i][j] += B->data[i][k] * C->data[k] * D->data[k][j]`). -/
def mat_mult_diag (A B : Mat) (C : Vec) (D : Mat) : Option Mat :=
  if A.nrows = A.ncols ∧ A.nrows = B.nrows ∧ B.nrows = B.ncols ∧
      B.nrows = C.size ∧ C.size = D.nrows ∧ D.nrows = D.ncols then
    some { A with
           data := regionData C.size C.size fun i j =>
             sumTo (fun k => mat_get B i k * vec_get C k * mat_get D k j)
               C.size }
  else none

/-- The explicit diagonal matrix built from the vector `d` (used by the
specification to state the algebraic identity behind `mat_mult_diag`). -/
def diagMat (d : Vec) : Mat :=
  matOfFn d.size d.size fun i j => if i = j then vec_get d i else 0

/-- `mat_resize(m, nrows, ncols)`.  Rows `nrows..` are freed; the row table
and each surviving row are `srealloc`ed, which preserves the prefix of each
row that remains in bounds and leaves newly created cells with unspecified
contents — modelled by the explicit `junk` parameter. -/
def mat_resize (m : Mat) (nrows ncols : Nat) (junk : Nat → Nat → ℚ) : Mat :=
  { nrows := nrows, ncols := ncols,
    data := regionData nrows ncols fun i j =>
      if i < m.nrows ∧ j < m.ncols then mat_get m i j else junk i j }

/-- Runtime memory fault, for the bounds-instrumented embedding of
`mat_vec_mult`: `oob` marks an access outside an allocated buffer. -/
inductive MemErr where
  | oob
deriving DecidableEq

/-- Bounds-checked read of `v->data[i]`: the C allocation for a `Vector`
holds exactly `size` doubles, so the access is in bounds iff `i < size`. -/
def vgetE (v : Vec) (i : Nat) : Except MemErr ℚ :=
  if i < v.size then .ok (vec_get v i) else .error .oob

/-- Bounds-checked write `v->data[i] = x`. -/
def vsetE (v : Vec) (i : Nat) (x : ℚ) : Except MemErr Vec :=
  if i < v.size then .ok { v with data := v.data.set i x } else .error .oob

/-- Bounds-checked read of `m->data[i][j]`. -/
def mgetE (m : Mat) (i j : Nat) : Except MemErr ℚ :=
  if i < m.nrows ∧ j < m.ncols then .ok (mat_get m i j) else .error .oob

/-- The body of the inner loop of `mat_vec_mult`:
`prod->data[i] += m->data[i][j] * v->data[j]`, with each of the three reads
and the write bounds-checked. -/
def mvInner (m : Mat) (v : Vec) (i : Nat) (p : Vec) (j : Nat) :
    Except MemErr Vec := do
  let a ← mgetE m i j
  let b ← vgetE v j
  let c ← vgetE p i
  vsetE p i (c + a * b)

/-- The body of the outer loop of `mat_vec_mult`: `prod->data[i] = 0;`
followed by the inner accumulation over `j < m->ncols`. -/
def mvRow (m : Mat) (v : Vec) (p : Vec) (i : Nat) : Except MemErr Vec := do
  let p ← vsetE p i 0
  (List.range m.ncols).foldlM (mvInner m v i) p

/-- `mat_vec_mult(prod, m, v)` with every element access bounds-checked.
The outer `Option` is the C `assert` (`m->nrows == v->size &&
v->size == prod->size`); the inner `Except` is `.error .oob` when the loop
body touches memory outside an allocation. -/
def mat_vec_mult (prod : Vec) (m : Mat) (v : Vec) :
    Option (Except MemErr Vec) :=
  if m.nrows = v.size ∧ v.size = prod.size then
    some ((List.range m.nrows).foldlM (mvRow m v) prod)
  else none

/-- The two notations `mat_print` chooses between: `"%11.6f "` or
`"%14.6e "`. -/
inductive Fmt where
  | fixed
  | scientific
deriving DecidableEq

/-- One step of `mat_print`'s scan: `val = fabs(x); if (val != 0 && val <
min) min = val;`, with `none` standing for the initial `INFTY` (every finite
value compares below it). -/
def minUpd (mn : Option ℚ) (x : ℚ) : Option ℚ :=
  match mn with
  | none => if |x| ≠ 0 then some |x| else none
  | some a => if |x| ≠ 0 ∧ |x| < a then some |x| else some a

/-- The elements of `m` in the order `mat_print` scans them (row-major over
the declared `nrows × ncols` extent). -/
def matElems (m : Mat) : List ℚ :=
  (List.range m.nrows).flatMap fun i =>
    (List.range m.ncols).map fun j => mat_get m i j

/-- `mat_print`'s whole-matrix format choice: scan for the smallest nonzero
absolute value (starting from `INFTY`); if one was found and it is below
`1e-3`, use scientific notation, else fixed. -/
def mat_print_fmt (m : Mat) : Fmt :=
  match (matElems m).foldl minUpd none with
  | none => .fixed
  | some a => if a < 1 / 1000 then .scientific else .fixed

/-- `mat_print(m, F)`: the sequence of formatted fields it emits, each
recorded as the conversion used together with the value printed.  The format
is chosen once for the entire matrix. -/
def mat_print (m : Mat) : List (List (Fmt × ℚ)) :=
  (List.range m.nrows).map fun i =>
    (List.range m.ncols).map fun j => (mat_print_fmt m, mat_get m i j)

/-! ### Inversion via the LAPACK backend -/

/-- The `n × n` scratch buffer `tmp` of `mat_invert`, viewed row-major:
`buf i j` is `tmp[i][j]`.  LAPACK reads the same memory column-major. -/
def Buf : Type := Nat → Nat → ℚ

/-- The external dense-linear-algebra factorization backend consumed by
`mat_invert`: `getrf n buf` models `dgetrf_(&n, &n, tmp, &n, ipiv, &info)`
(returning the overwritten buffer, the pivot array and `info`), and
`getri n buf ipiv` models `dgetri_(&n, tmp, &n, ipiv, work, &lwork, &info)`. -/
structure Backend where
  getrf : Nat → Buf → Buf × (Nat → Int) × Int
  getri : Nat → Buf → (Nat → Int) → Buf × Int

/-- The square matrix stored in the first `n × n` cells of `m`, as a Mathlib
matrix (used to state the backend contract and singularity). -/
def toSq (n : Nat) (m : Mat) : Matrix (Fin n) (Fin n) ℚ :=
  Matrix.of fun i j => mat_get m i.1 j.1

/-- The matrix LAPACK sees in a buffer: the column-major reading, i.e. the
transpose of the row-major view. -/
def colMajor (n : Nat) (buf : Buf) : Matrix (Fin n) (Fin n) ℚ :=
  Matrix.of fun i j => buf j.1 i.1

/-- `m` (restricted to order `n`) has no two-sided inverse — the exact
analogue of "singular" for the rational embedding. -/
def matSingular (n : Nat) (m : Mat) : Prop :=
  ¬ ∃ C : Matrix (Fin n) (Fin n) ℚ, C * toSq n m = 1 ∧ toSq n m * C = 1

/-- The LAPACK `getrf`/`getri` contract, as used by `mat_invert`: when both
calls report status `0`, the output buffer holds (column-major) a two-sided
inverse of the matrix that was presented (column-major) in the input
buffer. -/
def LapackOK (B : Backend) : Prop :=
  ∀ n buf, (B.getrf n buf).2.2 = 0 →
    (B.getri n (B.getrf n buf).1 (B.getrf n buf).2.1).2 = 0 →
    colMajor n (B.getri n (B.getrf n buf).1 (B.getrf n buf).2.1).1 *
        colMajor n buf = 1 ∧
      colMajor n buf *
        colMajor n (B.getri n (B.getrf n buf).1 (B.getrf n buf).2.1).1 = 1

/-- The final loop of `mat_invert`:
`for i for j mat_set(M_inv, i, j, tmp[j][i])`. -/
def matWriteTrans (dest : Mat) (n : Nat) (buf : Buf) : Mat :=
  (List.range n).foldl
    (fun d i => (List.range n).foldl
      (fun d j => mat_set d i j (buf j i)) d)
    dest

/-- The fill loop of `mat_invert`:
`for i for j tmp[i][j] = mat_get(M, j, i);` — the scratch buffer holds the
transpose of `M` row-major, hence `M` itself column-major. -/
def invTmp (M : Mat) : Buf :=
  fun i j => mat_get M j i

/-- The `dgetrf_` call of `mat_invert`, on the filled scratch buffer. -/
def invRF (B : Backend) (M : Mat) : Buf × (Nat → Int) × Int :=
  B.getrf M.nrows (invTmp M)

/-- The `dgetri_` call of `mat_invert`, on the factorization's outputs. -/
def invRI (B : Backend) (M : Mat) : Buf × Int :=
  B.getri M.nrows (invRF B M).1 (invRF B M).2.1

/-- `mat_invert(M_inv, M)` (LAPACK build).  Result: `none` for an `assert`
failure, otherwise `some (status, M_inv', M')` where `status` is the C return
value (`0` success, `1` failure) and `M_inv'`, `M'` are the final states of
the two matrix arguments (the embedding assumes `M_inv` and `M` do not
alias, per the library's exclusive-ownership rule).  The code fills `tmp`
with `mat_get(M, j, i)`, runs `dgetrf_`/`dgetri_` on it, returns `1` as soon
as either reports nonzero `info`, and only then copies `tmp[j][i]` into
`M_inv`. -/
def mat_invert (B : Backend) (M_inv M : Mat) : Option (Int × Mat × Mat) :=
  if M.nrows = M.ncols ∧ M_inv.nrows = M_inv.ncols ∧
      M.nrows = M_inv.nrows then
    if (invRF B M).2.2 ≠ 0 then some (1, M_inv, M)
    else if (invRI B M).2 ≠ 0 then some (1, M_inv, M)
    else some (0, matWriteTrans M_inv M.nrows (invRI B M).1, M)
  else none

/-- The row-major reading of an `n × n` buffer, as a `Mat`. -/
def bufMat (n : Nat) (buf : Buf) : Mat :=
  matOfFn n n fun i j => buf i j

/-- A `Mat` handed to the backend as a buffer (row-major). -/
def matBuf (m : Mat) : Buf :=
  fun i j => mat_get m i j

/-- The `dgetrf_` call as the specification words it: the backend is fed
`mat_transpose` of the source. -/
def specRF (B : Backend) (M : Mat) : Buf × (Nat → Int) × Int :=
  B.getrf M.nrows (matBuf (mat_transpose M))

/-- The `dgetri_` call on the specification-side factorization outputs. -/
def specRI (B : Backend) (M : Mat) : Buf × Int :=
  B.getri M.nrows (specRF B M).1 (specRF B M).2.1

/-- The specification's description of `mat_invert`: "feed the backend the
transpose of `src`, and transpose the backend's result before writing into
`dest`" — built literally from `mat_transpose`, with the same assert and the
same failure short-circuits as the code. -/
def mat_invert_spec (B : Backend) (M_inv M : Mat) : Option (Int × Mat × Mat) :=
  if M.nrows = M.ncols ∧ M_inv.nrows = M_inv.ncols ∧
      M.nrows = M_inv.nrows then
    if (specRF B M).2.2 ≠ 0 then some (1, M_inv, M)
    else if (specRI B M).2 ≠ 0 then some (1, M_inv, M)
    else
      some (0,
        { M_inv with
          data := (mat_transpose (bufMat M.nrows (specRI B M).1)).data }, M)
  else none

/-! ### Basic lemmas about the embedding -/

theorem regionData_getD (nr nc : Nat) (f : Nat → Nat → ℚ) (i j : Nat) :
    ((regionData nr nc f).getD i []).getD j 0 =
      if i < nr ∧ j < nc then f i j else 0 := by
  unfold regionData
  simp only [List.getD_eq_getElem?_getD, List.getElem?_map]
  rcases Nat.lt_or_ge i nr with hi | hi
  · rw [List.getElem?_range hi]
    simp only [Option.map_some', Option.getD_some, List.getElem?_map]
    rcases Nat.lt_or_ge j nc with hj | hj
    · rw [List.getElem?_range hj]
      simp [hi, hj]
    · have h0 : (List.range nc)[j]? = none :=
        List.getElem?_eq_none (by simpa using hj)
      rw [h0]
      simp [Nat.not_lt.2 hj]
  · have h0 : (List.range nr)[i]? = none :=
      List.getElem?_eq_none (by simpa using hi)
    rw [h0]
    simp [Nat.not_lt.2 hi]

theorem mat_get_matOfFn (nr nc : Nat) (f : Nat → Nat → ℚ) (i j : Nat) :
    mat_get (matOfFn nr nc f) i j = if i < nr ∧ j < nc then f i j else 0 := by
  unfold mat_get matOfFn
  exact regionData_getD nr nc f i j

theorem regionData_congr (nr nc : Nat) {f g : Nat → Nat → ℚ}
    (h : ∀ i < nr, ∀ j < nc, f i j = g i j) :
    regionData nr nc f = regionData nr nc g := by
  unfold regionData
  refine List.map_congr_left fun i hi => ?_
  refine List.map_congr_left fun j hj => ?_
  exact h i (List.mem_range.1 hi) j (List.mem_range.1 hj)

theorem regionData_length (nr nc : Nat) (f : Nat → Nat → ℚ) :
    (regionData nr nc f).length = nr := by
  simp [regionData]

theorem regionData_row_length (nr nc : Nat) (f : Nat → Nat → ℚ) :
    ∀ r ∈ regionData nr nc f, r.length = nc := by
  intro r hr
  unfold regionData at hr
  rcases List.mem_map.1 hr with ⟨i, _, rfl⟩
  simp

theorem sumTo_succ (f : Nat → ℚ) (n : Nat) :
    sumTo f (n + 1) = sumTo f n + f n := by
  unfold sumTo
  rw [List.range_succ, List.foldl_append]
  rfl

theorem sumTo_eq_sum (f : Nat → ℚ) (n : Nat) :
    sumTo f n = ∑ k ∈ Finset.range n, f k := by
  induction n with
  | zero => rfl
  | succ n ih => rw [sumTo_succ, ih, Finset.sum_range_succ]

theorem mat_get_mk (a b : Nat) (l : List (List ℚ)) (i j : Nat) :
    mat_get ⟨a, b, l⟩ i j = (l.getD i []).getD j 0 := rfl

theorem mat_get_data (m : Mat) (l : List (List ℚ)) (i j : Nat) :
    mat_get { m with data := l } i j = (l.getD i []).getD j 0 := rfl

theorem mat_get_transpose (M : Mat) (i j : Nat) :
    mat_get (mat_transpose M) i j =
      if i < M.ncols ∧ j < M.nrows then mat_get M j i else 0 := by
  unfold mat_transpose
  rw [mat_get_matOfFn]

theorem mat_transpose_nrows (M : Mat) : (mat_transpose M).nrows = M.ncols :=
  rfl

theorem mat_transpose_ncols (M : Mat) : (mat_transpose M).ncols = M.nrows :=
  rfl

theorem mat_get_diagMat (d : Vec) (i j : Nat) :
    mat_get (diagMat d) i j =
      if i < d.size ∧ j < d.size then (if i = j then vec_get d i else 0)
      else 0 := by
  unfold diagMat
  rw [mat_get_matOfFn]

/-- The entry formula for `mat_mult`, shared by the multiplication claims:
under the code's assert, the product is computed and each in-range output
cell holds the `Σ_k m1[i][k] * m2[k][j]` accumulation. -/
theorem mat_mult_entries (prod m1 m2 : Mat) (h1 : m1.ncols = m2.nrows)
    (h2 : m1.nrows = m2.ncols) (h3 : prod.nrows = m1.nrows)
    (h4 : prod.ncols = m2.ncols) :
    mat_mult prod m1 m2 =
      some { prod with
             data := regionData prod.nrows prod.ncols fun i j =>
               sumTo (fun k => mat_get m1 i k * mat_get m2 k j) m1.ncols } ∧
    ∀ i < prod.nrows, ∀ j < prod.ncols,
      mat_get { prod with
                data := regionData prod.nrows prod.ncols fun i j =>
                  sumTo (fun k => mat_get m1 i k * mat_get m2 k j) m1.ncols }
          i j =
        sumTo (fun k => mat_get m1 i k * mat_get m2 k j) m1.ncols := by
  constructor
  · unfold mat_mult
    rw [if_pos ⟨h1, h2, h3, h4⟩]
  · intro i hi j hj
    rw [mat_get_data, regionData_getD]
    simp [hi, hj]

/-! ### Concrete inputs for the witnesses -/

/-- A 2×3 example matrix. -/
def exA : Mat := ⟨2, 3, [[1, 2, 3], [4, 5, 6]]⟩

/-- A 1×2 matrix: together with `exB21`, a rectangular but conformable
multiplication instance. -/
def exA12 : Mat := ⟨1, 2, [[1, 1]]⟩

/-- A 2×3 matrix used as the right factor of a rectangular product. -/
def exB23 : Mat := ⟨2, 3, [[1, 0, 0], [0, 1, 0]]⟩

/-- A 1×3 destination for the rectangular product. -/
def exP13 : Mat := ⟨1, 3, [[0, 0, 0]]⟩

/-- A 1×1 matrix (all zero, hence singular). -/
def exZ1 : Mat := ⟨1, 1, [[0]]⟩

/-- A 1×1 destination matrix. -/
def exI1 : Mat := ⟨1, 1, [[7]]⟩

/-- A 2×2 source matrix for the inversion witnesses. -/
def exM2 : Mat := ⟨2, 2, [[1, 2], [3, 4]]⟩

/-- A 2×2 destination matrix for the inversion witnesses. -/
def exD2 : Mat := ⟨2, 2, [[9, 9], [9, 9]]⟩

/-- A backend whose factorization step always reports failure (`info = 1`);
it vacuously satisfies the LAPACK contract. -/
def failB : Backend :=
  ⟨fun _ buf => (buf, fun _ => 0, 1), fun _ buf _ => (buf, 1)⟩

/-- A backend that reports success and returns the buffer unchanged (no
arithmetic is performed, so witnesses can evaluate it by `decide`). -/
def idB : Backend :=
  ⟨fun _ buf => (buf, fun _ => 0, 0), fun _ buf _ => (buf, 0)⟩

/-! ### The claims -/

/-- **C3, counterexample.**  The claim says `mat_mult` passes its shape
check whenever `a.ncols = b.nrows` and `prod` is `a.nrows × b.ncols`.  The
concrete conformable instance `(1×2) · (2×3) → (1×3)` satisfies exactly
those preconditions, yet the code's `assert` also demands
`m1->nrows == m2->ncols` (here `1 = 3`), so the call aborts (`none`). -/
theorem mat_mult_rect_rejected :
    (exA12.ncols = exB23.nrows ∧ exP13.nrows = exA12.nrows ∧
      exP13.ncols = exB23.ncols) ∧
    mat_mult exP13 exA12 exB23 = none := by decide

/-- **C3, amended.**  With the additional condition `a.nrows = b.ncols`
that the code's `assert` also checks, `mat_mult(prod, a, b)` passes its
shape check and sets `prod[i][j]` to the zero-initialized accumulation
`Σ_{k < a.ncols} a[i][k] * b[k][j]` for every in-range cell. -/
theorem mat_mult_spec (prod a b : Mat) (h1 : a.ncols = b.nrows)
    (h2 : a.nrows = b.ncols) (h3 : prod.nrows = a.nrows)
    (h4 : prod.ncols = b.ncols) :
    ∃ q, mat_mult prod a b = some q ∧ q.nrows = prod.nrows ∧
      q.ncols = prod.ncols ∧
      ∀ i < prod.nrows, ∀ j < prod.ncols,
        mat_get q i j =
          sumTo (fun k => mat_get a i k * mat_get b k j) a.ncols := by
  obtain ⟨he, hv⟩ := mat_mult_entries prod a b h1 h2 h3 h4
  exact ⟨_, he, rfl, rfl, hv⟩

theorem mat_mult_spec_witness :
    (exA.ncols = (mat_transpose exA).nrows ∧
      exA.nrows = (mat_transpose exA).ncols ∧
      exD2.nrows = exA.nrows ∧ exD2.ncols = (mat_transpose exA).ncols) ∧
    ∃ q, mat_mult exD2 exA (mat_transpose exA) = some q ∧
      q.nrows = exD2.nrows ∧ q.ncols = exD2.ncols ∧
      ∀ i < exD2.nrows, ∀ j < exD2.ncols,
        mat_get q i j =
          sumTo (fun k => mat_get exA i k * mat_get (mat_transpose exA) k j)
            exA.ncols :=
  ⟨⟨by decide, by decide, by decide, by decide⟩,
    mat_mult_spec exD2 exA (mat_transpose exA)
      (by decide) (by decide) (by decide) (by decide)⟩

/-- **C4.**  `mat_mult_diag(A, B, d, D)` sets
`A[i][j] = Σ_k B[i][k] * d[k] * D[k][j]`, and this agrees element-wise with
`mat_mult(P2, mat_mult(P1, B, diag(d)), D)` computed with the explicit
diagonal matrix `diagMat d` (for any scratch destinations `P1`, `P2` of the
right shape). -/
theorem mat_mult_diag_spec (A B : Mat) (d : Vec) (D : Mat) (P1 P2 : Mat)
    (hA : A.nrows = A.ncols) (hAB : A.nrows = B.nrows)
    (hB : B.nrows = B.ncols) (hBd : B.nrows = d.size)
    (hdD : d.size = D.nrows) (hD : D.nrows = D.ncols)
    (hP1r : P1.nrows = d.size) (hP1c : P1.ncols = d.size)
    (hP2r : P2.nrows = d.size) (hP2c : P2.ncols = d.size) :
    ∃ R R1 R2, mat_mult_diag A B d D = some R ∧
      mat_mult P1 B (diagMat d) = some R1 ∧
      mat_mult P2 R1 D = some R2 ∧
      ∀ i < d.size, ∀ j < d.size,
        mat_get R i j =
          sumTo (fun k => mat_get B i k * vec_get d k * mat_get D k j)
            d.size ∧
        mat_get R i j = mat_get R2 i j := by
  have hdg : (diagMat d).nrows = d.size := rfl
  have hdgc : (diagMat d).ncols = d.size := rfl
  obtain ⟨he1, hv1⟩ := mat_mult_entries P1 B (diagMat d)
    (by rw [hdg, ← hBd, hB]) (by rw [hdgc, ← hBd]) (by rw [hP1r, hBd])
    (by rw [hP1c, hdgc])
  obtain ⟨he2, hv2⟩ := mat_mult_entries P2
    { P1 with
      data := regionData P1.nrows P1.ncols fun i j =>
        sumTo (fun k => mat_get B i k * mat_get (diagMat d) k j)
          B.ncols } D
    (by show P1.ncols = D.nrows; rw [hP1c, hdD])
    (by show P1.nrows = D.ncols; rw [hP1r, hdD, hD])
    (by show P2.nrows = P1.nrows; rw [hP2r, hP1r])
    (by show P2.ncols = D.ncols; rw [hP2c, hdD, hD])
  have heD : mat_mult_diag A B d D =
      some { A with
             data := regionData d.size d.size fun i j =>
               sumTo (fun k => mat_get B i k * vec_get d k * mat_get D k j)
                 d.size } := by
    unfold mat_mult_diag
    rw [if_pos ⟨hA, hAB, hB, hBd, hdD, hD⟩]
  have hvD : ∀ i < d.size, ∀ j < d.size,
      mat_get
          { A with
            data := regionData d.size d.size fun i j =>
              sumTo (fun k => mat_get B i k * vec_get d k * mat_get D k j)
                d.size } i j =
        sumTo (fun k => mat_get B i k * vec_get d k * mat_get D k j)
          d.size := by
    intro i hi j hj
    rw [mat_get_data, regionData_getD]
    simp [hi, hj]
  refine ⟨_, _, _, heD, he1, he2, ?_⟩
  intro i hi j hj
  refine ⟨hvD i hi j hj, ?_⟩
  rw [hvD i hi j hj]
  rw [hv2 i (by rw [hP2r]; exact hi) j (by rw [hP2c]; exact hj)]
  rw [sumTo_eq_sum, sumTo_eq_sum]
  refine Finset.sum_congr ?_ ?_
  · exact (congrArg Finset.range hP1c).symm
  · intro l hl
    have hlP1 : l < P1.ncols := Finset.mem_range.1 hl
    have hl' : l < d.size := hP1c ▸ hlP1
    rw [hv1 i (by rw [hP1r]; exact hi) l hlP1]
    rw [sumTo_eq_sum]
    have hinner :
        ∑ k ∈ Finset.range B.ncols,
            mat_get B i k * mat_get (diagMat d) k l =
          mat_get B i l * vec_get d l := by
      have hsc : ∀ k ∈ Finset.range B.ncols,
          mat_get B i k * mat_get (diagMat d) k l =
            if k = l then mat_get B i k * vec_get d k else 0 := by
        intro k hk
        have hk' := Finset.mem_range.1 hk
        rw [mat_get_diagMat]
        have hkd : k < d.size := by rw [← hBd, hB]; exact hk'
        simp only [hkd, hl', and_self, if_true]
        by_cases hkl : k = l
        · simp [hkl]
        · simp [hkl]
      rw [Finset.sum_congr rfl hsc, Finset.sum_ite_eq' (Finset.range B.ncols)
        l (fun k => mat_get B i k * vec_get d k)]
      have hlB : l ∈ Finset.range B.ncols := by
        rw [Finset.mem_range, ← hB, hBd]; exact hl'
      simp [hlB]
    rw [hinner]

theorem mat_mult_diag_spec_witness :
    (exD2.nrows = exD2.ncols ∧ exD2.nrows = exM2.nrows ∧
      exM2.nrows = exM2.ncols ∧ exM2.nrows = (⟨2, [5, 7]⟩ : Vec).size ∧
      (⟨2, [5, 7]⟩ : Vec).size = exM2.nrows ∧ exM2.nrows = exM2.ncols ∧
      exD2.nrows = (⟨2, [5, 7]⟩ : Vec).size ∧
      exD2.ncols = (⟨2, [5, 7]⟩ : Vec).size) ∧
    ∃ R R1 R2, mat_mult_diag exD2 exM2 ⟨2, [5, 7]⟩ exM2 = some R ∧
      mat_mult exD2 exM2 (diagMat ⟨2, [5, 7]⟩) = some R1 ∧
      mat_mult exD2 R1 exM2 = some R2 ∧
      ∀ i < (⟨2, [5, 7]⟩ : Vec).size, ∀ j < (⟨2, [5, 7]⟩ : Vec).size,
        mat_get R i j =
          sumTo (fun k => mat_get exM2 i k * vec_get ⟨2, [5, 7]⟩ k *
            mat_get exM2 k j) (⟨2, [5, 7]⟩ : Vec).size ∧
        mat_get R i j = mat_get R2 i j :=
  ⟨⟨rfl, rfl, rfl, rfl, rfl, rfl, rfl, rfl⟩,
    mat_mult_diag_spec exD2 exM2 ⟨2, [5, 7]⟩ exM2 exD2 exD2
      rfl rfl rfl rfl rfl rfl rfl rfl rfl rfl⟩

/-- **C5.**  `mat_transpose(M)` is a freshly allocated `ncols × nrows`
matrix whose `[j][i]` entry equals `M[i][j]`, and transposing twice
reproduces `M` element-wise. -/
theorem mat_transpose_spec (M : Mat) :
    (mat_transpose M).nrows = M.ncols ∧
    (mat_transpose M).ncols = M.nrows ∧
    (mat_transpose M).data.length = M.ncols ∧
    (∀ r ∈ (mat_transpose M).data, r.length = M.nrows) ∧
    (∀ i < M.nrows, ∀ j < M.ncols,
      mat_get (mat_transpose M) j i = mat_get M i j) ∧
    (∀ i < M.nrows, ∀ j < M.ncols,
      mat_get (mat_transpose (mat_transpose M)) i j = mat_get M i j) := by
  refine ⟨rfl, rfl, regionData_length _ _ _, regionData_row_length _ _ _,
    ?_, ?_⟩
  · intro i hi j hj
    rw [mat_get_transpose]
    simp [hi, hj]
  · intro i hi j hj
    rw [mat_get_transpose, mat_transpose_nrows, mat_transpose_ncols,
      mat_get_transpose]
    simp [hi, hj]

theorem mat_transpose_spec_witness :
    (0 < exA.nrows ∧ 1 < exA.ncols) ∧
    mat_get (mat_transpose exA) 1 0 = mat_get exA 0 1 ∧
    mat_get (mat_transpose (mat_transpose exA)) 0 1 = mat_get exA 0 1 :=
  ⟨⟨by decide, by decide⟩,
    (mat_transpose_spec exA).2.2.2.2.1 0 (by decide) 1 (by decide),
    (mat_transpose_spec exA).2.2.2.2.2 0 (by decide) 1 (by decide)⟩

/-- **C8.**  After `mat_resize(m, nr, nc, ·)` the matrix has shape
`nr × nc` (row table and every row buffer included), and every cell that is
in bounds both before and after keeps its value, whatever unspecified
contents (`junk`) reallocation puts in the newly created cells. -/
theorem mat_resize_spec (m : Mat) (nr nc : Nat) (junk : Nat → Nat → ℚ) :
    (mat_resize m nr nc junk).nrows = nr ∧
    (mat_resize m nr nc junk).ncols = nc ∧
    (mat_resize m nr nc junk).data.length = nr ∧
    (∀ r ∈ (mat_resize m nr nc junk).data, r.length = nc) ∧
    ∀ i j, i < min m.nrows nr → j < min m.ncols nc →
      mat_get (mat_resize m nr nc junk) i j = mat_get m i j := by
  refine ⟨rfl, rfl, regionData_length _ _ _, regionData_row_length _ _ _, ?_⟩
  intro i j hi hj
  rcases Nat.lt_min.1 hi with ⟨hi1, hi2⟩
  rcases Nat.lt_min.1 hj with ⟨hj1, hj2⟩
  rw [mat_resize, mat_get_mk, regionData_getD]
  simp [hi1, hi2, hj1, hj2]

theorem mat_resize_spec_witness :
    (0 < min exA.nrows 3 ∧ 1 < min exA.ncols 2) ∧
    mat_get (mat_resize exA 3 2 fun _ _ => 37) 0 1 = mat_get exA 0 1 :=
  ⟨⟨by decide, by decide⟩,
    (mat_resize_spec exA 3 2 fun _ _ => 37).2.2.2.2 0 1 (by decide)
      (by decide)⟩

/-- **C9.**  `mat_invert` is atomic on failure: whenever it returns the
failure status (nonzero), the destination matrix is exactly as it was
before the call — both early `return 1` paths precede the write-back
loop. -/
theorem mat_invert_fail_frame (B : Backend) (M_inv M : Mat)
    (r : Int × Mat × Mat) (h : mat_invert B M_inv M = some r)
    (hf : r.1 ≠ 0) : r.2.1 = M_inv := by
  unfold mat_invert at h
  split at h
  · split at h
    · obtain rfl := Option.some.inj h
      rfl
    · split at h
      · obtain rfl := Option.some.inj h
        rfl
      · obtain rfl := Option.some.inj h
        exact absurd rfl hf
  · exact absurd h (by simp)

theorem mat_invert_fail_frame_witness :
    mat_invert failB exD2 exM2 = some (1, exD2, exM2) ∧ ((1 : Int) ≠ 0) ∧
    ((1 : Int), exD2, exM2).2.1 = exD2 :=
  ⟨by decide, by decide,
    mat_invert_fail_frame failB exD2 exM2 (1, exD2, exM2) (by decide)
      (by decide)⟩

/-- **C10.**  `mat_invert` never modifies its source: it reads `M` only to
fill the private scratch buffer `tmp`, and on every path (success or
failure) the source matrix comes back unchanged (no-aliasing assumed, per
the library's ownership rules). -/
theorem mat_invert_src_frame (B : Backend) (M_inv M : Mat)
    (r : Int × Mat × Mat) (h : mat_invert B M_inv M = some r) :
    r.2.2 = M := by
  unfold mat_invert at h
  split at h
  · split at h
    · obtain rfl := Option.some.inj h
      rfl
    · split at h
      · obtain rfl := Option.some.inj h
        rfl
      · obtain rfl := Option.some.inj h
        rfl
  · exact absurd h (by simp)

theorem mat_invert_src_frame_witness :
    mat_invert idB exD2 exM2 = some (0, exM2, exM2) ∧
    ((0 : Int), exM2, exM2).2.2 = exM2 :=
  ⟨by decide,
    mat_invert_src_frame idB exD2 exM2 (0, exM2, exM2) (by decide)⟩

/-- **C2.**  Under the shape `assert`, `mat_invert` fails (returns a nonzero
status, always `1`) exactly when the `dgetrf_` step or the `dgetri_` step
reports a nonzero status (so when both report `0` it returns success, `0`);
and for a backend honouring the LAPACK contract, every singular source
matrix — one with no two-sided inverse, e.g. the all-zero matrix — makes it
fail. -/
theorem mat_invert_status_spec (B : Backend) (M_inv M : Mat)
    (h1 : M.nrows = M.ncols) (h2 : M_inv.nrows = M_inv.ncols)
    (h3 : M.nrows = M_inv.nrows) :
    ∃ r, mat_invert B M_inv M = some r ∧
      (r.1 ≠ 0 ↔ (invRF B M).2.2 ≠ 0 ∨ (invRI B M).2 ≠ 0) ∧
      (LapackOK B → matSingular M.nrows M → r.1 = 1) := by
  unfold mat_invert
  rw [if_pos ⟨h1, h2, h3⟩]
  by_cases hrf : (invRF B M).2.2 ≠ 0
  · rw [if_pos hrf]
    exact ⟨_, rfl, by simp [hrf], fun _ _ => rfl⟩
  · rw [if_neg hrf]
    push_neg at hrf
    by_cases hri : (invRI B M).2 ≠ 0
    · rw [if_pos hri]
      exact ⟨_, rfl, by simp [hri], fun _ _ => rfl⟩
    · rw [if_neg hri]
      push_neg at hri
      refine ⟨_, rfl, by simp [hrf, hri], fun hL hS => ?_⟩
      exfalso
      apply hS
      have hc := hL M.nrows (invTmp M) hrf hri
      exact ⟨colMajor M.nrows (invRI B M).1, hc.1, hc.2⟩

theorem mat_invert_status_spec_witness :
    (exZ1.nrows = exZ1.ncols ∧ exI1.nrows = exI1.ncols ∧
      exZ1.nrows = exI1.nrows) ∧
    ∃ r, mat_invert failB exI1 exZ1 = some r ∧
      (r.1 ≠ 0 ↔ (invRF failB exZ1).2.2 ≠ 0 ∨ (invRI failB exZ1).2 ≠ 0) ∧
      (LapackOK failB → matSingular exZ1.nrows exZ1 → r.1 = 1) :=
  ⟨⟨rfl, rfl, rfl⟩, mat_invert_status_spec failB exI1 exZ1 rfl rfl rfl⟩

/-- One scan step preserves the meaning of the running minimum: after
processing `x`, the state is a value below `c` iff `x` is a nonzero element
with `|x| < c` or the state already was below `c`. -/
theorem minUpd_lt (mn : Option ℚ) (x c : ℚ) :
    (∃ a, minUpd mn x = some a ∧ a < c) ↔
      (x ≠ 0 ∧ |x| < c) ∨ ∃ a, mn = some a ∧ a < c := by
  cases mn with
  | none =>
    have hdef : minUpd none x = if |x| ≠ 0 then some |x| else none := rfl
    rw [hdef]
    by_cases hx : |x| ≠ 0
    · have hx0 : x ≠ 0 := abs_ne_zero.1 hx
      rw [if_pos hx]
      simp [hx0]
    · have hx0 : x = 0 := abs_eq_zero.1 (not_ne_iff.1 hx)
      rw [if_neg hx]
      simp [hx0]
  | some b =>
    have hdef : minUpd (some b) x =
        if |x| ≠ 0 ∧ |x| < b then some |x| else some b := rfl
    rw [hdef]
    by_cases h : |x| ≠ 0 ∧ |x| < b
    · have hx0 : x ≠ 0 := abs_ne_zero.1 h.1
      rw [if_pos h]
      simp only [Option.some.injEq, hx0, ne_eq, not_false_eq_true, true_and]
      constructor
      · rintro ⟨a, rfl, ha⟩
        exact Or.inl ha
      · rintro (ha | ⟨a, rfl, ha⟩)
        · exact ⟨_, rfl, ha⟩
        · exact ⟨_, rfl, lt_trans h.2 ha⟩
    · rw [if_neg h]
      simp only [Option.some.injEq]
      constructor
      · rintro ⟨a, rfl, ha⟩
        exact Or.inr ⟨_, rfl, ha⟩
      · rintro (⟨hx0, hxc⟩ | ⟨a, rfl, ha⟩)
        · refine ⟨_, rfl, ?_⟩
          have hxb : ¬ |x| < b := fun hlt => h ⟨abs_ne_zero.2 hx0, hlt⟩
          linarith [not_lt.1 hxb]
        · exact ⟨_, rfl, ha⟩

/-- The scan of `mat_print` ends below `c` iff the list contains a nonzero
element of absolute value below `c` (or the accumulator already was
below `c`). -/
theorem foldl_minUpd_lt (c : ℚ) (l : List ℚ) : ∀ mn : Option ℚ,
    (∃ a, l.foldl minUpd mn = some a ∧ a < c) ↔
      (∃ x ∈ l, x ≠ 0 ∧ |x| < c) ∨ ∃ a, mn = some a ∧ a < c := by
  induction l with
  | nil => intro mn; simp
  | cons x l ih =>
    intro mn
    rw [List.foldl_cons, ih (minUpd mn x), minUpd_lt]
    simp only [List.mem_cons]
    constructor
    · rintro (⟨y, hy, hp⟩ | (hx | hmn))
      · exact Or.inl ⟨y, Or.inr hy, hp⟩
      · exact Or.inl ⟨x, Or.inl rfl, hx⟩
      · exact Or.inr hmn
    · rintro (⟨y, hy | hy, hp⟩ | hmn)
      · subst hy
        exact Or.inr (Or.inl hp)
      · exact Or.inl ⟨y, hy, hp⟩
      · exact Or.inr (Or.inr hmn)

/-- The format decision of `mat_print`, characterised: scientific notation
is chosen iff some nonzero element has absolute value below `1e-3` —
equivalently, iff the smallest nonzero absolute value present is below
`1e-3`. -/
theorem mat_print_fmt_scientific (m : Mat) :
    mat_print_fmt m = Fmt.scientific ↔
      ∃ x ∈ matElems m, x ≠ 0 ∧ |x| < 1 / 1000 := by
  have h := foldl_minUpd_lt (1 / 1000) (matElems m) none
  simp only [reduceCtorEq, false_and, exists_false, exists_const, or_false]
    at h
  constructor
  · intro hs
    apply h.1
    unfold mat_print_fmt at hs
    cases hres : (matElems m).foldl minUpd none with
    | none =>
      rw [hres] at hs
      have hs' : Fmt.fixed = Fmt.scientific := hs
      exact absurd hs' (by simp)
    | some a =>
      rw [hres] at hs
      have hs' : (if a < 1 / 1000 then Fmt.scientific else Fmt.fixed) =
          Fmt.scientific := hs
      by_cases hac : a < 1 / 1000
      · exact ⟨a, rfl, hac⟩
      · rw [if_neg hac] at hs'
        exact absurd hs' (by simp)
  · intro hx
    rcases h.2 hx with ⟨a, ha, hlt⟩
    unfold mat_print_fmt
    rw [ha]
    show (if a < 1 / 1000 then Fmt.scientific else Fmt.fixed) = Fmt.scientific
    rw [if_pos hlt]

/-- **C7.**  `mat_print` chooses one conversion for the entire matrix: every
emitted field carries the same format `mat_print_fmt m`, and that format is
scientific iff the matrix has a nonzero element of absolute value below
`1e-3` (equivalently, iff the smallest nonzero absolute value among the
elements is below `1e-3`); otherwise everything is printed fixed-point. -/
theorem mat_print_whole_matrix (m : Mat) :
    (∀ row ∈ mat_print m, ∀ e ∈ row, e.1 = mat_print_fmt m) ∧
    (mat_print_fmt m = Fmt.scientific ↔
      ∃ x ∈ matElems m, x ≠ 0 ∧ |x| < 1 / 1000) := by
  constructor
  · intro row hrow e he
    unfold mat_print at hrow
    rcases List.mem_map.1 hrow with ⟨i, _, rfl⟩
    rcases List.mem_map.1 he with ⟨j, _, rfl⟩
    rfl
  · exact mat_print_fmt_scientific m

theorem mat_print_whole_matrix_witness :
    (∀ row ∈ mat_print exA, ∀ e ∈ row, e.1 = mat_print_fmt exA) ∧
    (mat_print_fmt exA = Fmt.scientific ↔
      ∃ x ∈ matElems exA, x ≠ 0 ∧ |x| < 1 / 1000) :=
  mat_print_whole_matrix exA

/-! ### List update lemmas shared by the loop proofs -/

theorem getD_set_self {α : Type} (l : List α) (i : Nat) (x d : α)
    (h : i < l.length) : (l.set i x).getD i d = x := by
  rw [List.getD_eq_getElem?_getD, List.getElem?_set]
  simp [h]

theorem getD_set_ne {α : Type} (l : List α) (i t : Nat) (x d : α)
    (h : i ≠ t) : (l.set i x).getD t d = l.getD t d := by
  rw [List.getD_eq_getElem?_getD, List.getElem?_set, if_neg h,
    ← List.getD_eq_getElem?_getD]

theorem set_getD_self {α : Type} (l : List α) (i : Nat) (d : α) :
    l.set i (l.getD i d) = l := by
  apply List.ext_getElem?
  intro n
  rw [List.getElem?_set]
  by_cases h : i = n
  · subst h
    by_cases hl : i < l.length
    · rw [if_pos rfl, if_pos hl, List.getD_eq_getElem?_getD,
        List.getElem?_eq_getElem hl]
      simp
    · rw [if_pos rfl, if_neg hl]
      exact (List.getElem?_eq_none (Nat.le_of_not_lt hl)).symm
  · rw [if_neg h]

theorem exc_bind_ok {α β : Type} (a : α) (f : α → Except MemErr β) :
    (Except.ok a >>= f) = f a := rfl

theorem exc_bind_error {α β : Type} (e : MemErr)
    (f : α → Except MemErr β) :
    ((Except.error e : Except MemErr α) >>= f) = Except.error e := rfl

theorem foldl_add_shift (g : Nat → ℚ) :
    ∀ (js : List Nat) (a : ℚ),
      js.foldl (fun x j => x + g j) a =
        a + js.foldl (fun x j => x + g j) 0 := by
  intro js
  induction js with
  | nil => intro a; simp
  | cons j js ih =>
    intro a
    rw [List.foldl_cons, List.foldl_cons, ih (a + g j), ih (0 + g j)]
    ring

/-- The inner loop of `mat_vec_mult` succeeds when every index it touches is
in bounds, and accumulates the partial dot product into `prod->data[i]`. -/
theorem mvInner_fold (m : Mat) (v : Vec) (i : Nat) :
    ∀ (js : List Nat) (p : Vec), (∀ j ∈ js, j < m.ncols ∧ j < v.size) →
      i < m.nrows → i < p.size → p.data.length = p.size →
      ∃ q : Vec, js.foldlM (mvInner m v i) p = .ok q ∧ q.size = p.size ∧
        q.data.length = p.data.length ∧
        (∀ t, t ≠ i → vec_get q t = vec_get p t) ∧
        vec_get q i = vec_get p i +
          js.foldl (fun a j => a + mat_get m i j * vec_get v j) 0 := by
  intro js
  induction js with
  | nil =>
    intro p _ _ _ _
    exact ⟨p, rfl, rfl, rfl, fun _ _ => rfl, by simp⟩
  | cons j js ih =>
    intro p hjs him hip hlen
    obtain ⟨hjm, hjv⟩ := hjs j (List.mem_cons_self j js)
    have hjs' : ∀ j' ∈ js, j' < m.ncols ∧ j' < v.size :=
      fun j' hj' => hjs j' (List.mem_cons_of_mem j hj')
    rw [List.foldlM_cons]
    have hstep : mvInner m v i p j =
        Except.ok (⟨p.size, p.data.set i
          (vec_get p i + mat_get m i j * vec_get v j)⟩ : Vec) := by
      simp only [mvInner, mgetE, vgetE, vsetE, him, hjm, hjv, hip, and_self,
        if_true, exc_bind_ok]
    rw [hstep, exc_bind_ok]
    obtain ⟨q, hq, hqs, hql, hqt, hqi⟩ := ih
      ⟨p.size, p.data.set i (vec_get p i + mat_get m i j * vec_get v j)⟩
      hjs' him hip (by simp [hlen])
    refine ⟨q, hq, hqs, ?_, ?_, ?_⟩
    · rw [hql]
      simp
    · intro t ht
      rw [hqt t ht]
      show (p.data.set i _).getD t 0 = vec_get p t
      rw [getD_set_ne _ _ _ _ _ (fun he => ht he.symm)]
      rfl
    · rw [hqi]
      have hpi : vec_get
          (⟨p.size, p.data.set i
            (vec_get p i + mat_get m i j * vec_get v j)⟩ : Vec) i =
          vec_get p i + mat_get m i j * vec_get v j := by
        show (p.data.set i _).getD i 0 = _
        rw [getD_set_self _ _ _ _ (hlen ▸ hip)]
      rw [hpi, List.foldl_cons,
        foldl_add_shift _ js (0 + mat_get m i j * vec_get v j)]
      ring

/-- The outer loop of `mat_vec_mult` succeeds when `m.ncols ≤ v.size` and the
processed row indices are in bounds, leaving `prod->data[t]` holding the dot
product of row `t` with `v` for every processed `t`. -/
theorem mvRow_fold (m : Mat) (v : Vec) (hcv : m.ncols ≤ v.size) :
    ∀ (is : List Nat) (p : Vec), (∀ i ∈ is, i < m.nrows ∧ i < p.size) →
      p.data.length = p.size →
      ∃ q : Vec, is.foldlM (mvRow m v) p = .ok q ∧ q.size = p.size ∧
        q.data.length = p.data.length ∧
        (∀ t, t ∉ is → vec_get q t = vec_get p t) ∧
        ∀ t ∈ is, vec_get q t =
          sumTo (fun j => mat_get m t j * vec_get v j) m.ncols := by
  intro is
  induction is with
  | nil =>
    intro p _ _
    exact ⟨p, rfl, rfl, rfl, fun _ _ => rfl, by simp⟩
  | cons i is ih =>
    intro p his hlen
    obtain ⟨him, hip⟩ := his i (List.mem_cons_self i is)
    have his' : ∀ i' ∈ is, i' < m.nrows ∧ i' < p.size :=
      fun i' hi' => his i' (List.mem_cons_of_mem i hi')
    rw [List.foldlM_cons]
    have hsetp : vsetE p i 0 = .ok (⟨p.size, p.data.set i 0⟩ : Vec) := by
      simp only [vsetE, hip, if_true]
    have hrow0 : ∀ j ∈ List.range m.ncols, j < m.ncols ∧ j < v.size :=
      fun j hj => ⟨List.mem_range.1 hj,
        lt_of_lt_of_le (List.mem_range.1 hj) hcv⟩
    obtain ⟨q1, hq1, hq1s, hq1l, hq1t, hq1i⟩ := mvInner_fold m v i
      (List.range m.ncols) ⟨p.size, p.data.set i 0⟩ hrow0 him hip
      (by simp [hlen])
    have hrowstep : mvRow m v p i = .ok q1 := by
      simp only [mvRow, hsetp, exc_bind_ok]
      exact hq1
    rw [hrowstep, exc_bind_ok]
    have hq1len : q1.data.length = q1.size := by
      rw [hq1l, hq1s]
      simp [hlen]
    obtain ⟨q, hq, hqs, hql, hqt, hqv⟩ := ih q1
      (fun i' hi' => ⟨(his' i' hi').1, by rw [hq1s]; exact (his' i' hi').2⟩)
      hq1len
    have hq1i' : vec_get q1 i =
        sumTo (fun j => mat_get m i j * vec_get v j) m.ncols := by
      rw [hq1i]
      have h0 : vec_get (⟨p.size, p.data.set i 0⟩ : Vec) i = 0 := by
        show (p.data.set i 0).getD i 0 = 0
        rw [getD_set_self _ _ _ _ (hlen ▸ hip)]
      rw [h0, zero_add]
      rfl
    refine ⟨q, hq, by rw [hqs, hq1s], by rw [hql, hq1l]; simp, ?_, ?_⟩
    · intro t ht
      have ht1 : t ≠ i := fun he => ht (he ▸ List.mem_cons_self i is)
      have ht2 : t ∉ is := fun hm => ht (List.mem_cons_of_mem i hm)
      rw [hqt t ht2, hq1t t ht1]
      show (p.data.set i 0).getD t 0 = vec_get p t
      rw [getD_set_ne _ _ _ _ _ (fun he => ht1 he.symm)]
      rfl
    · intro t htm
      rcases List.mem_cons.1 htm with rfl | htis
      · by_cases hti : t ∈ is
        · exact hqv t hti
        · rw [hqt t hti]
          exact hq1i'
      · exact hqv t htis

/-! Concrete inputs for the matrix–vector claims. -/

/-- A size-1 vector. -/
def cexV : Vec := ⟨1, [5]⟩

/-- A size-1 destination vector. -/
def cexPV : Vec := ⟨1, [0]⟩

/-- A size-2 vector. -/
def exV2 : Vec := ⟨2, [1, 2]⟩

/-- A size-2 destination vector. -/
def exPV2 : Vec := ⟨2, [0, 0]⟩

/-- **C6, counterexample.**  The claim says that under the code's own
precondition `m.nrows == v.size == prod.size` every element access of
`mat_vec_mult` is in bounds.  For the 1×2 matrix `exA12` with size-1
vectors the precondition holds (`1 = 1 = 1`), the `assert` passes, yet the
inner loop reads `v->data[1]` of a size-1 vector: the bounds-instrumented
embedding reaches the error branch. -/
theorem mat_vec_mult_oob :
    (exA12.nrows = cexV.size ∧ cexV.size = cexPV.size) ∧
    mat_vec_mult cexPV exA12 cexV = some (.error .oob) := by
  exact ⟨⟨rfl, rfl⟩, rfl⟩

/-- **C6, amended.**  With the additional hypothesis `m.ncols ≤ v.size`
(automatic for the square matrices the library inverts and multiplies, but
not implied by the code's `assert`), and the vector allocation invariant for
`prod`, `mat_vec_mult` passes its shape check, every element access is in
bounds (the error branch is unreachable), and
`prod[i] = Σ_{j < m.ncols} m[i][j] * v[j]` for every row `i`. -/
theorem mat_vec_mult_safe (prod : Vec) (m : Mat) (v : Vec)
    (h1 : m.nrows = v.size) (h2 : v.size = prod.size)
    (hc : m.ncols ≤ v.size) (hlen : prod.data.length = prod.size) :
    ∃ q : Vec, mat_vec_mult prod m v = some (.ok q) ∧ q.size = prod.size ∧
      ∀ i < m.nrows,
        vec_get q i =
          sumTo (fun j => mat_get m i j * vec_get v j) m.ncols := by
  unfold mat_vec_mult
  rw [if_pos ⟨h1, h2⟩]
  obtain ⟨q, hq, hqs, _, _, hqv⟩ := mvRow_fold m v hc (List.range m.nrows)
    prod
    (fun i hi => ⟨List.mem_range.1 hi, by
      rw [← h2, ← h1]; exact List.mem_range.1 hi⟩)
    hlen
  exact ⟨q, by rw [hq], hqs, fun i hi => hqv i (List.mem_range.2 hi)⟩

theorem mat_vec_mult_safe_witness :
    (exM2.nrows = exV2.size ∧ exV2.size = exPV2.size ∧
      exM2.ncols ≤ exV2.size ∧ exPV2.data.length = exPV2.size) ∧
    ∃ q : Vec, mat_vec_mult exPV2 exM2 exV2 = some (.ok q) ∧
      q.size = exPV2.size ∧
      ∀ i < exM2.nrows,
        vec_get q i =
          sumTo (fun j => mat_get exM2 i j * vec_get exV2 j) exM2.ncols :=
  ⟨⟨rfl, rfl, by decide, rfl⟩,
    mat_vec_mult_safe exPV2 exM2 exV2 rfl rfl (by decide) rfl⟩

/-! ### The write-back loop of `mat_invert` -/

/-- Under the allocation invariant, reads outside the declared extent return
the embedding's default `0`. -/
theorem mat_get_oob (M : Mat) (hw : matWF M) (i j : Nat)
    (h : ¬ (i < M.nrows ∧ j < M.ncols)) : mat_get M i j = 0 := by
  unfold mat_get
  rcases Nat.lt_or_ge i M.nrows with hi | hi
  · have hj : M.ncols ≤ j := by
      rcases Nat.lt_or_ge j M.ncols with hj | hj
      · exact absurd ⟨hi, hj⟩ h
      · exact hj
    have hik : i < M.data.length := by rw [hw.1]; exact hi
    have hrl : (M.data.getD i []).length = M.ncols := by
      rw [List.getD_eq_getElem?_getD, List.getElem?_eq_getElem hik]
      exact hw.2 _ (List.getElem_mem hik)
    have hnone : (M.data.getD i [])[j]? = none :=
      List.getElem?_eq_none (by rw [hrl]; exact hj)
    rw [List.getD_eq_getElem?_getD (M.data.getD i []) j 0, hnone]
    rfl
  · have hnone : M.data[i]? = none :=
      List.getElem?_eq_none (by rw [hw.1]; exact hi)
    rw [List.getD_eq_getElem?_getD M.data i [], hnone]
    rfl

/-- Filling a prefix of a buffer cell by cell equals replacing that prefix
wholesale (the reallocation-free part survives as the dropped suffix). -/
theorem foldl_range_set {α : Type} (g : Nat → α) :
    ∀ (k : Nat) (l : List α), k ≤ l.length →
      (List.range k).foldl (fun l j => l.set j (g j)) l =
        (List.range k).map g ++ l.drop k := by
  intro k
  induction k with
  | zero => intro l _; rfl
  | succ k ih =>
    intro l h
    rw [List.range_succ, List.foldl_append, List.map_append,
      ih l (le_trans (Nat.le_succ k) h)]
    simp only [List.foldl_cons, List.foldl_nil, List.map_cons, List.map_nil]
    rw [List.set_append]
    have hP : (List.map g (List.range k)).length = k := by simp
    rw [hP, if_neg (lt_irrefl k), Nat.sub_self]
    have hkl : k < l.length := lt_of_lt_of_le (Nat.lt_succ_self k) h
    rw [List.drop_eq_getElem_cons hkl]
    have hsc : (l[k] :: l.drop (k + 1)).set 0 (g k) = g k :: l.drop (k + 1) :=
      rfl
    rw [hsc, List.append_assoc, List.singleton_append]

/-- A run of the inner write loop of `mat_invert` at row `i` equals one row
replacement. -/
theorem matSet_row_fold (i : Nat) (g : Nat → ℚ) :
    ∀ (js : List Nat) (d : Mat),
      js.foldl (fun d j => mat_set d i j (g j)) d =
        { d with data := (d.data.set i
            (js.foldl (fun r j => r.set j (g j)) (d.data.getD i []))) } := by
  intro js
  induction js with
  | nil =>
    intro d
    simp only [List.foldl_nil]
    rw [set_getD_self]
  | cons j js ih =>
    intro d
    rw [List.foldl_cons, ih (mat_set d i j (g j))]
    simp only [mat_set]
    congr 1
    rw [List.set_set]
    rw [List.foldl_cons]
    have harg : ((d.data.set i ((d.data.getD i []).set j (g j))).getD i []) =
        (d.data.getD i []).set j (g j) := by
      by_cases h : i < d.data.length
      · exact getD_set_self _ _ _ _ h
      · have h1 : (d.data.set i ((d.data.getD i []).set j (g j)))[i]? =
            none :=
          List.getElem?_eq_none
            (by rw [List.length_set]; exact Nat.le_of_not_lt h)
        have h2 : d.data[i]? = none :=
          List.getElem?_eq_none (Nat.le_of_not_lt h)
        rw [List.getD_eq_getElem?_getD, h1,
          List.getD_eq_getElem?_getD d.data i [], h2]
        rfl
    rw [harg]

/-- The outer write loop of `mat_invert`, processed up to row `k`: the first
`k` rows hold the transposed buffer contents, the rest is untouched. -/
theorem matWrite_outer (n : Nat) (buf : Buf) :
    ∀ (k : Nat) (d : Mat), k ≤ n → d.data.length = n →
      (∀ r ∈ d.data, r.length = n) →
      (List.range k).foldl
        (fun d i => (List.range n).foldl
          (fun d j => mat_set d i j (buf j i)) d) d =
        { d with data :=
            ((List.range k).map fun i =>
              (List.range n).map fun j => buf j i) ++ d.data.drop k } := by
  intro k
  induction k with
  | zero => intro d _ _ _; rfl
  | succ k ih =>
    intro d hk hlen hrows
    have hkl : k < d.data.length := by
      rw [hlen]
      exact lt_of_lt_of_le (Nat.lt_succ_self k) hk
    have hP : ((List.range k).map fun i =>
        (List.range n).map fun j => buf j i).length = k := by simp
    have hgetd : (((List.range k).map fun i =>
          (List.range n).map fun j => buf j i) ++ d.data.drop k).getD k [] =
        d.data.getD k [] := by
      rw [List.getD_eq_getElem?_getD,
        List.getElem?_append_right (by rw [hP]), hP, Nat.sub_self,
        List.getElem?_drop, Nat.add_zero, ← List.getD_eq_getElem?_getD]
    have hrowlen : (d.data.getD k []).length = n := by
      rw [List.getD_eq_getElem?_getD, List.getElem?_eq_getElem hkl]
      exact hrows _ (List.getElem_mem hkl)
    have hdropn : (d.data.getD k []).drop n = [] := by
      rw [← hrowlen]
      exact List.drop_length _
    rw [List.range_succ, List.foldl_append, List.map_append,
      ih d (le_trans (Nat.le_succ k) hk) hlen hrows]
    simp only [List.foldl_cons, List.foldl_nil, List.map_cons, List.map_nil]
    rw [matSet_row_fold k (fun j => buf j k) (List.range n)]
    dsimp only
    congr 1
    rw [hgetd]
    rw [foldl_range_set (fun j => buf j k) n (d.data.getD k [])
      (le_of_eq hrowlen.symm)]
    rw [hdropn, List.append_nil]
    rw [List.set_append, hP, if_neg (lt_irrefl k), Nat.sub_self,
      List.drop_eq_getElem_cons hkl]
    have hsc : (d.data[k] :: d.data.drop (k + 1)).set 0
        ((List.range n).map fun j => buf j k) =
        ((List.range n).map fun j => buf j k) :: d.data.drop (k + 1) := rfl
    rw [hsc, List.append_assoc, List.singleton_append]

/-- The write-back loop `for i for j mat_set(M_inv, i, j, tmp[j][i])` equals
overwriting the destination with the transpose of the buffer, provided the
destination's allocation is an `n × n` grid. -/
theorem matWriteTrans_eq (dest : Mat) (n : Nat) (buf : Buf)
    (hlen : dest.data.length = n) (hrows : ∀ r ∈ dest.data, r.length = n) :
    matWriteTrans dest n buf =
      { dest with data := regionData n n fun i j => buf j i } := by
  unfold matWriteTrans
  rw [matWrite_outer n buf n dest (le_refl n) hlen hrows]
  congr 1
  have hdropn : dest.data.drop n = [] := by
    rw [← hlen]
    exact List.drop_length _
  rw [hdropn, List.append_nil]
  rfl

/-- **C1.**  `mat_invert` refines the specification's description: it is
extensionally equal to feeding the backend the transpose of the source (the
column-major image) and writing the transpose of the backend's result into
the destination — assert, failure short-circuits and success payload
included — whenever the two matrices satisfy the allocation invariant. -/
theorem mat_invert_refines_spec (B : Backend) (M_inv M : Mat)
    (hwS : matWF M) (hwD : matWF M_inv) :
    mat_invert B M_inv M = mat_invert_spec B M_inv M := by
  unfold mat_invert mat_invert_spec
  by_cases hA : M.nrows = M.ncols ∧ M_inv.nrows = M_inv.ncols ∧
      M.nrows = M_inv.nrows
  · rw [if_pos hA, if_pos hA]
    have hbuf : invTmp M = matBuf (mat_transpose M) := by
      funext i j
      show mat_get M j i = mat_get (mat_transpose M) i j
      rw [mat_get_transpose]
      by_cases hij : i < M.ncols ∧ j < M.nrows
      · rw [if_pos hij]
      · rw [if_neg hij]
        exact mat_get_oob M hwS j i (fun hh => hij ⟨hh.2, hh.1⟩)
    have hRF : invRF B M = specRF B M := by
      unfold invRF specRF
      rw [hbuf]
    have hRI : invRI B M = specRI B M := by
      unfold invRI specRI
      rw [hRF]
    rw [hRF, hRI]
    by_cases h1 : (specRF B M).2.2 ≠ 0
    · rw [if_pos h1, if_pos h1]
    · rw [if_neg h1, if_neg h1]
      by_cases h2 : (specRI B M).2 ≠ 0
      · rw [if_pos h2, if_pos h2]
      · rw [if_neg h2, if_neg h2]
        have hd1 : M_inv.data.length = M.nrows := by
          rw [hwD.1, ← hA.2.2]
        have hd2 : ∀ r ∈ M_inv.data, r.length = M.nrows := by
          intro r hr
          rw [hwD.2 r hr, ← hA.2.1, ← hA.2.2]
        rw [matWriteTrans_eq M_inv M.nrows (specRI B M).1 hd1 hd2]
        have hdata : regionData M.nrows M.nrows
            (fun i j => (specRI B M).1 j i) =
            (mat_transpose (bufMat M.nrows (specRI B M).1)).data := by
          show regionData M.nrows M.nrows (fun i j => (specRI B M).1 j i) =
            regionData M.nrows M.nrows
              (fun a b => mat_get (bufMat M.nrows (specRI B M).1) b a)
          apply regionData_congr
          intro a ha b hb
          show (specRI B M).1 b a =
            mat_get (matOfFn M.nrows M.nrows fun i j => (specRI B M).1 i j)
              b a
          rw [mat_get_matOfFn]
          simp [ha, hb]
        rw [hdata]
  · rw [if_neg hA, if_neg hA]

theorem mat_invert_refines_spec_witness :
    (matWF exM2 ∧ matWF exD2) ∧
    mat_invert idB exD2 exM2 = mat_invert_spec idB exD2 exM2 :=
  ⟨⟨by decide, by decide⟩,
    mat_invert_refines_spec idB exD2 exM2 (by decide) (by decide)⟩

end Phast
